import Mathlib

/-!
Verification of the open-addressing string hash table of `src/hash_table.h`
(`ht_item`, `ht_hash_table`, `ht_new`, `ht_insert`, `ht_search`, `ht_delete`,
`ht_del_hash_table`).  The repository ships only the header and the driver
`src/main.c`; the bodies of the five table operations are absent, so the
operational definitions below are modelled from the specification's words
(linear probing from `hash(key) mod capacity`, tombstone slots, first-reusable
placement).  The hash function is an arbitrary parameter `hash : String → Nat`,
as the spec only requires a deterministic hash.
-/

/-- Embedding of `ht_item` from `src/hash_table.h`: an owned key/value pair of
strings. -/
structure ht_item where
  key : String
  value : String
deriving DecidableEq

/-- A bucket state.  The header stores `ht_item**` buckets where `NULL` encodes
an empty bucket and a shared sentinel encodes a tombstone; the spec's tagged
three-state view of the same data is `Empty | Occupied | Deleted`. -/
inductive Slot where
  | empty : Slot
  | occupied : ht_item → Slot
  | deleted : Slot
deriving DecidableEq

/-- Embedding of `ht_hash_table` from `src/hash_table.h`: `size` is the
capacity (number of buckets), `count` the number of live entries, `items` the
bucket array. -/
structure ht_hash_table where
  size : Nat
  count : Nat
  items : List Slot
deriving DecidableEq

/-- The spec's error kinds (section 7). -/
inductive HtError where
  | ConfigurationError : HtError
  | AllocationError : HtError
  | TableFullError : HtError
deriving DecidableEq

/-- Modelled from the spec: the probe sequence for a key — linear probing
starting at `hash(key) mod capacity`, wrapping modulo the capacity, visiting
`capacity` buckets.  (The probe function itself is absent from `src/`.) -/
def probeSeq (hash : String → Nat) (cap : Nat) (key : String) : List Nat :=
  (List.range cap).map (fun j => (hash key % cap + j) % cap)

/-- The bucket at index `i` (out-of-range reads yield `empty`; all probe
indices are in range). -/
def slotAt (items : List Slot) (i : Nat) : Slot :=
  items.getD i Slot.empty

/-- Modelled from the spec: the probe loop shared by `ht_search` and
`ht_delete` — walk the probe sequence, stop with `none` at an `Empty` bucket,
skip `Deleted` buckets and non-matching `Occupied` buckets, stop with the
bucket index and its entry at an `Occupied` bucket holding the key. -/
def findEntry (items : List Slot) (key : String) : List Nat → Option (Nat × ht_item)
  | [] => none
  | i :: rest =>
    match slotAt items i with
    | Slot.empty => none
    | Slot.occupied it => if it.key = key then some (i, it) else findEntry items key rest
    | Slot.deleted => findEntry items key rest

/-- Modelled from the spec: the scan `ht_insert` makes for an already-present
key — it continues through the whole probe sequence (through `Occupied`
non-matching and `Deleted` buckets) looking for an `Occupied` bucket holding
the key. -/
def findKeyFull (items : List Slot) (key : String) : List Nat → Option Nat
  | [] => none
  | i :: rest =>
    match slotAt items i with
    | Slot.occupied it => if it.key = key then some i else findKeyFull items key rest
    | _ => findKeyFull items key rest

/-- A bucket is reusable for insertion when it is `Empty` or `Deleted`. -/
def isReusable (s : Slot) : Bool :=
  match s with
  | Slot.occupied _ => false
  | _ => true

/-- A bucket holds a live entry. -/
def isOccupied (s : Slot) : Bool :=
  match s with
  | Slot.occupied _ => true
  | _ => false

/-- Modelled from the spec: the first `Deleted` or `Empty` bucket of the probe
sequence, the reuse candidate for insertion. -/
def findReuse (items : List Slot) : List Nat → Option Nat
  | [] => none
  | i :: rest => if isReusable (slotAt items i) then some i else findReuse items rest

/-- Number of `Occupied` buckets. -/
def countOccupied (items : List Slot) : Nat :=
  items.countP isOccupied

/-- Modelled from the spec: `new(capacity)` allocates `capacity` buckets, all
`Empty`, with `count = 0`; non-positive capacity is a `ConfigurationError` and
allocation failure an `AllocationError`.  The body of `ht_new` is absent from
`src/` (the header only declares `ht_new(void)`); allocation success is an
oracle argument `allocOk`, since a pure model cannot run out of memory. -/
def ht_new (capacity : Int) (allocOk : Bool) : Except HtError ht_hash_table :=
  if capacity ≤ 0 then Except.error HtError.ConfigurationError
  else if allocOk then
    Except.ok ⟨capacity.toNat, 0, List.replicate capacity.toNat Slot.empty⟩
  else Except.error HtError.AllocationError

/-- Modelled from the spec: `ht_search` probes from the initial index, skips
tombstones, stops at `Empty` with not-found, and returns the stored value on a
key match.  The table is not mutated (the model returns only the value). -/
def ht_search (hash : String → Nat) (ht : ht_hash_table) (key : String) : Option String :=
  (findEntry ht.items key (probeSeq hash ht.size key)).map (fun p => p.2.value)

/-- Modelled from the spec: `ht_insert` overwrites the value in place if the
key is already present (no `count` change); otherwise it places the new entry
at the first `Deleted` or `Empty` bucket of the probe sequence and increments
`count`; if the key is absent and no bucket of the probe sequence is reusable
it fails with `TableFullError`.  The header declares `ht_insert` as returning
`void`; the error channel is modelled with `Except` as the spec requires the
error to reach the caller. -/
def ht_insert (hash : String → Nat) (ht : ht_hash_table) (key value : String) :
    Except HtError ht_hash_table :=
  let ps := probeSeq hash ht.size key
  match findKeyFull ht.items key ps with
  | some i => Except.ok { ht with items := ht.items.set i (Slot.occupied ⟨key, value⟩) }
  | none =>
    match findReuse ht.items ps with
    | some j =>
      Except.ok { ht with count := ht.count + 1,
                          items := ht.items.set j (Slot.occupied ⟨key, value⟩) }
    | none => Except.error HtError.TableFullError

/-- Modelled from the spec: `ht_delete` probes as `ht_search` does; on a match
it releases the entry, turns the bucket into a tombstone and decrements
`count`; when the key is absent it is a no-op. -/
def ht_delete (hash : String → Nat) (ht : ht_hash_table) (key : String) : ht_hash_table :=
  match findEntry ht.items key (probeSeq hash ht.size key) with
  | some (i, _) => { ht with count := ht.count - 1, items := ht.items.set i Slot.deleted }
  | none => ht

/-- The entries released by scanning a bucket list for destruction, in bucket
order. -/
def delAux : List Slot → List ht_item
  | [] => []
  | Slot.occupied it :: rest => it :: delAux rest
  | Slot.empty :: rest => delAux rest
  | Slot.deleted :: rest => delAux rest

/-- Modelled from the spec: `ht_del_hash_table` walks the bucket array and
releases each `Occupied` entry's owned storage (then the array itself, which a
pure model does not track); `Empty` and `Deleted` buckets own nothing and are
skipped.  The result is the trace of entries freed, in bucket order. -/
def ht_del_hash_table (ht : ht_hash_table) : List ht_item :=
  delAux ht.items

/-- Running a sequence of `ht_insert` calls, propagating the first error, as
the driver in `src/main.c` performs a fixed sequence of inserts. -/
def insertAll (hash : String → Nat) (ht : ht_hash_table) :
    List (String × String) → Except HtError ht_hash_table
  | [] => Except.ok ht
  | (k, v) :: rest =>
    match ht_insert hash ht k v with
    | Except.ok ht' => insertAll hash ht' rest
    | Except.error e => Except.error e

/-- A concrete hash function used to instantiate the parametric development on
examples: every key hashes to the initial bucket 0, giving maximal collisions. -/
def hash0 : String → Nat := fun _ => 0

/-- The table invariant: the bucket list realises the declared capacity,
`count` counts the `Occupied` buckets, and every `Occupied` entry is found by
the search probe for its key at its own bucket (hence each live key occupies
exactly one bucket, reachable by its probe sequence). -/
def wf (hash : String → Nat) (ht : ht_hash_table) : Prop :=
  ht.items.length = ht.size ∧
  ht.count = countOccupied ht.items ∧
  ∀ i it, ht.items.get? i = some (Slot.occupied it) →
    findEntry ht.items it.key (probeSeq hash ht.size it.key) = some (i, it)

/-! ### Basic lemmas about buckets and probe walks -/

/-- How one bucket affects a probe walk for a key: stop with not-found, stop
with a match, or continue probing. -/
inductive SAct where
  | stopNone : SAct
  | hit : SAct
  | pass : SAct
deriving DecidableEq

/-- The action a bucket induces on the walk for `key`. -/
def slotAct (s : Slot) (key : String) : SAct :=
  match s with
  | Slot.empty => SAct.stopNone
  | Slot.deleted => SAct.pass
  | Slot.occupied it => if it.key = key then SAct.hit else SAct.pass

theorem slotAt_set_self : ∀ (items : List Slot) (j : Nat) (s : Slot), j < items.length →
    slotAt (items.set j s) j = s
  | [], j, s, h => by simp at h
  | a :: l, 0, s, _ => rfl
  | a :: l, j+1, s, h => slotAt_set_self l j s (by simpa using h)

theorem slotAt_set_ne : ∀ (items : List Slot) (j m : Nat) (s : Slot), m ≠ j →
    slotAt (items.set j s) m = slotAt items m
  | [], _, _, _, _ => by simp
  | a :: l, 0, 0, s, h => absurd rfl h
  | a :: l, 0, m+1, s, h => rfl
  | a :: l, j+1, 0, s, h => rfl
  | a :: l, j+1, m+1, s, h => slotAt_set_ne l j m s (fun hh => h (by rw [hh]))

theorem get?_slotAt : ∀ (items : List Slot) (i : Nat), i < items.length →
    items.get? i = some (slotAt items i)
  | [], i, h => by simp at h
  | a :: l, 0, _ => rfl
  | a :: l, i+1, h => get?_slotAt l i (by simpa using h)

theorem get?_set_ne : ∀ (items : List Slot) (j m : Nat) (s : Slot), m ≠ j →
    (items.set j s).get? m = items.get? m
  | [], _, _, _, _ => by simp
  | a :: l, 0, 0, s, h => absurd rfl h
  | a :: l, 0, m+1, s, h => rfl
  | a :: l, j+1, 0, s, h => rfl
  | a :: l, j+1, m+1, s, h => get?_set_ne l j m s (fun hh => h (by rw [hh]))

theorem countOccupied_set : ∀ (items : List Slot) (j : Nat) (s : Slot), j < items.length →
    countOccupied (items.set j s) + (if isOccupied (slotAt items j) then 1 else 0)
      = countOccupied items + (if isOccupied s then 1 else 0)
  | [], j, s, h => by simp at h
  | a :: l, 0, s, _ => by
    simp [countOccupied, List.countP_cons, slotAt]
    omega
  | a :: l, j+1, s, h => by
    have ih := countOccupied_set l j s (by simpa using h)
    have hsa : slotAt (a :: l) (j+1) = slotAt l j := rfl
    simp only [List.set, countOccupied, List.countP_cons, hsa] at *
    omega

theorem countOccupied_le_length (items : List Slot) : countOccupied items ≤ items.length :=
  List.countP_le_length _

theorem findEntry_cons_empty {items : List Slot} {key : String} {i : Nat} (rest : List Nat)
    (hs : slotAt items i = Slot.empty) :
    findEntry items key (i :: rest) = none := by
  simp [findEntry, hs]

theorem findEntry_cons_hit {items : List Slot} {key : String} {i : Nat} (rest : List Nat)
    {it : ht_item} (hs : slotAt items i = Slot.occupied it) (hk : it.key = key) :
    findEntry items key (i :: rest) = some (i, it) := by
  simp [findEntry, hs, hk]

theorem findEntry_cons_pass {items : List Slot} {key : String} {i : Nat} (rest : List Nat)
    (h : slotAct (slotAt items i) key = SAct.pass) :
    findEntry items key (i :: rest) = findEntry items key rest := by
  cases hs : slotAt items i with
  | empty => rw [hs] at h; simp [slotAct] at h
  | occupied it =>
    rw [hs] at h
    by_cases hk : it.key = key
    · simp [slotAct, hk] at h
    · simp [findEntry, hs, hk]
  | deleted => simp [findEntry, hs]

theorem slotAct_hit_of_occupied {s : Slot} {key : String} {it : ht_item}
    (hs : s = Slot.occupied it) (hk : it.key = key) : slotAct s key = SAct.hit := by
  simp [slotAct, hs, hk]

theorem slotAct_pass_of_deleted {key : String} : slotAct Slot.deleted key = SAct.pass := rfl

theorem slotAct_eq_hit {s : Slot} {key : String} (h : slotAct s key = SAct.hit) :
    ∃ it, s = Slot.occupied it ∧ it.key = key := by
  cases s with
  | empty => simp [slotAct] at h
  | deleted => simp [slotAct] at h
  | occupied it =>
    by_cases hk : it.key = key
    · exact ⟨it, rfl, hk⟩
    · simp [slotAct, hk] at h

theorem findEntry_some_spec {items : List Slot} {key : String} {i : Nat} {it : ht_item} :
    ∀ ps : List Nat, findEntry items key ps = some (i, it) →
    i ∈ ps ∧ slotAt items i = Slot.occupied it ∧ it.key = key
  | [], h => by simp [findEntry] at h
  | m :: rest, h => by
    cases hs : slotAt items m with
    | empty => rw [findEntry_cons_empty rest hs] at h; exact absurd h (by simp)
    | occupied it' =>
      by_cases hk : it'.key = key
      · rw [findEntry_cons_hit rest hs hk] at h
        have h1 : m = i ∧ it' = it := by
          have := h
          simp at this
          exact this
        obtain ⟨rfl, rfl⟩ := h1
        exact ⟨List.mem_cons_self _ _, hs, hk⟩
      · have hp : slotAct (slotAt items m) key = SAct.pass := by simp [slotAct, hs, hk]
        rw [findEntry_cons_pass rest hp] at h
        obtain ⟨h1, h2, h3⟩ := findEntry_some_spec rest h
        exact ⟨List.mem_cons_of_mem _ h1, h2, h3⟩
    | deleted =>
      rw [findEntry_cons_pass rest (by rw [hs]; rfl)] at h
      obtain ⟨h1, h2, h3⟩ := findEntry_some_spec rest h
      exact ⟨List.mem_cons_of_mem _ h1, h2, h3⟩

theorem findEntry_eq_none_of_no_hit {items : List Slot} {key : String} :
    ∀ ps : List Nat, (∀ m ∈ ps, slotAct (slotAt items m) key ≠ SAct.hit) →
    findEntry items key ps = none
  | [], _ => rfl
  | m :: rest, h => by
    cases hs : slotAt items m with
    | empty => exact findEntry_cons_empty rest hs
    | occupied it =>
      by_cases hk : it.key = key
      · exact absurd (slotAct_hit_of_occupied hs hk) (h m (List.mem_cons_self _ _))
      · rw [findEntry_cons_pass rest (by simp [slotAct, hs, hk])]
        exact findEntry_eq_none_of_no_hit rest (fun m' hm' => h m' (List.mem_cons_of_mem _ hm'))
    | deleted =>
      rw [findEntry_cons_pass rest (by rw [hs]; rfl)]
      exact findEntry_eq_none_of_no_hit rest (fun m' hm' => h m' (List.mem_cons_of_mem _ hm'))

theorem findEntry_congr {items₁ items₂ : List Slot} {key : String} {i : Nat} {it : ht_item} :
    ∀ ps : List Nat,
    findEntry items₁ key ps = some (i, it) →
    (∀ m ∈ ps, slotAct (slotAt items₁ m) key = SAct.pass →
      slotAct (slotAt items₂ m) key = SAct.pass) →
    (∀ m ∈ ps, slotAct (slotAt items₁ m) key = SAct.hit → slotAt items₂ m = slotAt items₁ m) →
    findEntry items₂ key ps = some (i, it)
  | [], h, _, _ => by simp [findEntry] at h
  | m :: rest, h, hpass, hhit => by
    cases hs : slotAt items₁ m with
    | empty => rw [findEntry_cons_empty rest hs] at h; exact absurd h (by simp)
    | occupied it' =>
      by_cases hk : it'.key = key
      · rw [findEntry_cons_hit rest hs hk] at h
        have h2 : slotAt items₂ m = Slot.occupied it' := by
          rw [hhit m (List.mem_cons_self _ _) (slotAct_hit_of_occupied hs hk)]
          exact hs
        rw [findEntry_cons_hit rest h2 hk]
        exact h
      · have hp1 : slotAct (slotAt items₁ m) key = SAct.pass := by simp [slotAct, hs, hk]
        rw [findEntry_cons_pass rest hp1] at h
        rw [findEntry_cons_pass rest (hpass m (List.mem_cons_self _ _) hp1)]
        exact findEntry_congr rest h
          (fun m' hm' => hpass m' (List.mem_cons_of_mem _ hm'))
          (fun m' hm' => hhit m' (List.mem_cons_of_mem _ hm'))
    | deleted =>
      have hp1 : slotAct (slotAt items₁ m) key = SAct.pass := by rw [hs]; rfl
      rw [findEntry_cons_pass rest hp1] at h
      rw [findEntry_cons_pass rest (hpass m (List.mem_cons_self _ _) hp1)]
      exact findEntry_congr rest h
        (fun m' hm' => hpass m' (List.mem_cons_of_mem _ hm'))
        (fun m' hm' => hhit m' (List.mem_cons_of_mem _ hm'))

theorem findEntry_set_hit {items : List Slot} {key : String} {i : Nat} {it it' : ht_item} :
    ∀ ps : List Nat, findEntry items key ps = some (i, it) →
    i < items.length → it'.key = key →
    findEntry (items.set i (Slot.occupied it')) key ps = some (i, it')
  | [], h, _, _ => by simp [findEntry] at h
  | m :: rest, h, hlen, hk' => by
    have hspec := findEntry_some_spec (m :: rest) h
    cases hs : slotAt items m with
    | empty => rw [findEntry_cons_empty rest hs] at h; exact absurd h (by simp)
    | occupied itm =>
      by_cases hk : itm.key = key
      · rw [findEntry_cons_hit rest hs hk] at h
        have h1 : m = i ∧ itm = it := by simpa using h
        obtain ⟨rfl, rfl⟩ := h1
        exact findEntry_cons_hit rest (slotAt_set_self items m _ hlen) hk'
      · have hmi : m ≠ i := by
          intro hh
          rw [hh, hspec.2.1] at hs
          cases hs
          exact hk hspec.2.2
        have hp : slotAct (slotAt items m) key = SAct.pass := by simp [slotAct, hs, hk]
        rw [findEntry_cons_pass rest hp] at h
        have hp2 : slotAct (slotAt (items.set i (Slot.occupied it')) m) key = SAct.pass := by
          rw [slotAt_set_ne items i m _ hmi]; exact hp
        rw [findEntry_cons_pass rest hp2]
        exact findEntry_set_hit rest h hlen hk'
    | deleted =>
      have hmi : m ≠ i := by
        intro hh
        rw [hh, hspec.2.1] at hs
        cases hs
      have hp : slotAct (slotAt items m) key = SAct.pass := by rw [hs]; rfl
      rw [findEntry_cons_pass rest hp] at h
      have hp2 : slotAct (slotAt (items.set i (Slot.occupied it')) m) key = SAct.pass := by
        rw [slotAt_set_ne items i m _ hmi]; exact hp
      rw [findEntry_cons_pass rest hp2]
      exact findEntry_set_hit rest h hlen hk'

theorem findReuse_some_spec {items : List Slot} {j : Nat} :
    ∀ ps : List Nat, findReuse items ps = some j →
    j ∈ ps ∧ isReusable (slotAt items j) = true
  | [], h => by simp [findReuse] at h
  | m :: rest, h => by
    by_cases hr : isReusable (slotAt items m)
    · rw [findReuse, if_pos hr] at h
      cases h
      exact ⟨List.mem_cons_self _ _, hr⟩
    · rw [findReuse, if_neg hr] at h
      obtain ⟨h1, h2⟩ := findReuse_some_spec rest h
      exact ⟨List.mem_cons_of_mem _ h1, h2⟩

theorem findReuse_eq_none_iff {items : List Slot} :
    ∀ ps : List Nat, findReuse items ps = none ↔ ∀ m ∈ ps, isReusable (slotAt items m) = false
  | [] => by simp [findReuse]
  | m :: rest => by
    by_cases hr : isReusable (slotAt items m)
    · simp [findReuse, hr]
    · rw [findReuse, if_neg hr, findReuse_eq_none_iff rest]
      simp only [List.mem_cons]
      constructor
      · intro h m' hm'
        rcases hm' with rfl | hm'
        · exact Bool.eq_false_iff.mpr hr
        · exact h m' hm'
      · intro h m' hm'
        exact h m' (Or.inr hm')

theorem findEntry_after_reuse {items : List Slot} {key value : String} {j : Nat} :
    ∀ ps : List Nat,
    (∀ m ∈ ps, slotAct (slotAt items m) key ≠ SAct.hit) →
    (∀ m ∈ ps, m < items.length) →
    findReuse items ps = some j →
    findEntry (items.set j (Slot.occupied ⟨key, value⟩)) key ps = some (j, ⟨key, value⟩)
  | [], _, _, h => by simp [findReuse] at h
  | m :: rest, hnohit, hlen, h => by
    by_cases hr : isReusable (slotAt items m)
    · rw [findReuse, if_pos hr] at h
      injection h with hmj
      subst hmj
      exact findEntry_cons_hit rest
        (slotAt_set_self items m _ (hlen m (List.mem_cons_self _ _))) rfl
    · rw [findReuse, if_neg hr] at h
      by_cases hmj : m = j
      · subst hmj
        exact findEntry_cons_hit rest
          (slotAt_set_self items m _ (hlen m (List.mem_cons_self _ _))) rfl
      · cases hs : slotAt items m with
        | empty => rw [hs] at hr; exact absurd rfl hr
        | deleted => rw [hs] at hr; exact absurd rfl hr
        | occupied itm =>
          have hk : itm.key ≠ key := by
            intro hk
            exact hnohit m (List.mem_cons_self _ _) (slotAct_hit_of_occupied hs hk)
          have hp : slotAct (slotAt (items.set j (Slot.occupied ⟨key, value⟩)) m) key
              = SAct.pass := by
            rw [slotAt_set_ne items j m _ hmj, hs]
            simp [slotAct, hk]
          rw [findEntry_cons_pass rest hp]
          exact findEntry_after_reuse rest
            (fun m' hm' => hnohit m' (List.mem_cons_of_mem _ hm'))
            (fun m' hm' => hlen m' (List.mem_cons_of_mem _ hm')) h

theorem findKeyFull_cons_hit {items : List Slot} {key : String} {m : Nat} (rest : List Nat)
    {it : ht_item} (hs : slotAt items m = Slot.occupied it) (hk : it.key = key) :
    findKeyFull items key (m :: rest) = some m := by
  simp [findKeyFull, hs, hk]

theorem findKeyFull_cons_skip {items : List Slot} {key : String} {m : Nat} (rest : List Nat)
    (h : slotAct (slotAt items m) key ≠ SAct.hit) :
    findKeyFull items key (m :: rest) = findKeyFull items key rest := by
  cases hs : slotAt items m with
  | empty => simp [findKeyFull, hs]
  | deleted => simp [findKeyFull, hs]
  | occupied it =>
    by_cases hk : it.key = key
    · rw [hs] at h
      exact absurd (by simp [slotAct, hk]) h
    · simp [findKeyFull, hs, hk]

theorem findKeyFull_some_spec {items : List Slot} {key : String} {i : Nat} :
    ∀ ps : List Nat, findKeyFull items key ps = some i →
    i ∈ ps ∧ ∃ it, slotAt items i = Slot.occupied it ∧ it.key = key
  | [], h => by simp [findKeyFull] at h
  | m :: rest, h => by
    cases hs : slotAt items m with
    | occupied itm =>
      by_cases hk : itm.key = key
      · rw [findKeyFull_cons_hit rest hs hk] at h
        injection h with hmi
        subst hmi
        exact ⟨List.mem_cons_self _ _, itm, hs, hk⟩
      · rw [findKeyFull_cons_skip rest (by simp [slotAct, hs, hk])] at h
        obtain ⟨h1, h2⟩ := findKeyFull_some_spec rest h
        exact ⟨List.mem_cons_of_mem _ h1, h2⟩
    | empty =>
      rw [findKeyFull_cons_skip rest (by simp [slotAct, hs])] at h
      obtain ⟨h1, h2⟩ := findKeyFull_some_spec rest h
      exact ⟨List.mem_cons_of_mem _ h1, h2⟩
    | deleted =>
      rw [findKeyFull_cons_skip rest (by simp [slotAct, hs])] at h
      obtain ⟨h1, h2⟩ := findKeyFull_some_spec rest h
      exact ⟨List.mem_cons_of_mem _ h1, h2⟩

theorem findKeyFull_eq_none_iff {items : List Slot} {key : String} :
    ∀ ps : List Nat,
    (findKeyFull items key ps = none ↔ ∀ m ∈ ps, slotAct (slotAt items m) key ≠ SAct.hit)
  | [] => by simp [findKeyFull]
  | m :: rest => by
    by_cases hhit : slotAct (slotAt items m) key = SAct.hit
    · obtain ⟨itm, hs, hk⟩ := slotAct_eq_hit hhit
      rw [findKeyFull_cons_hit rest hs hk]
      simp only [List.mem_cons]
      constructor
      · intro h; cases h
      · intro h
        exact absurd hhit (h m (Or.inl rfl))
    · rw [findKeyFull_cons_skip rest hhit, findKeyFull_eq_none_iff rest]
      simp only [List.mem_cons]
      constructor
      · intro h m' hm'
        rcases hm' with rfl | hm'
        · exact hhit
        · exact h m' hm'
      · intro h m' hm'
        exact h m' (Or.inr hm')

/-! ### Probe sequence lemmas -/

theorem length_probeSeq (hash : String → Nat) (cap : Nat) (key : String) :
    (probeSeq hash cap key).length = cap := by
  simp [probeSeq]

theorem mem_probeSeq_lt {hash : String → Nat} {cap : Nat} {key : String} {m : Nat}
    (h : m ∈ probeSeq hash cap key) : m < cap := by
  simp only [probeSeq, List.mem_map, List.mem_range] at h
  obtain ⟨j, hj, rfl⟩ := h
  exact Nat.mod_lt _ (Nat.pos_of_ne_zero (fun hh => by omega))

theorem mem_probeSeq {hash : String → Nat} {cap : Nat} {key : String} {i : Nat}
    (hcap : 0 < cap) (hi : i < cap) : i ∈ probeSeq hash cap key := by
  simp only [probeSeq, List.mem_map, List.mem_range]
  have hr : hash key % cap < cap := Nat.mod_lt _ hcap
  by_cases hle : hash key % cap ≤ i
  · refine ⟨i - hash key % cap, by omega, ?_⟩
    have h1 : hash key % cap + (i - hash key % cap) = i := by omega
    rw [h1]
    exact Nat.mod_eq_of_lt hi
  · refine ⟨i + cap - hash key % cap, by omega, ?_⟩
    have h1 : hash key % cap + (i + cap - hash key % cap) = i + cap := by omega
    rw [h1, Nat.add_mod_right]
    exact Nat.mod_eq_of_lt hi

/-! ### Consequences of the invariant -/

theorem slotAt_of_le_length {items : List Slot} {m : Nat} (h : items.length ≤ m) :
    slotAt items m = Slot.empty :=
  List.getD_eq_default _ _ h

theorem wf_find_of_hit {hash : String → Nat} {ht : ht_hash_table} {key : String}
    (hwf : wf hash ht) {m : Nat} (hh : slotAct (slotAt ht.items m) key = SAct.hit) :
    ∃ it, slotAt ht.items m = Slot.occupied it ∧ it.key = key ∧
      findEntry ht.items key (probeSeq hash ht.size key) = some (m, it) := by
  obtain ⟨it, hs, hk⟩ := slotAct_eq_hit hh
  have hlt : m < ht.items.length := by
    by_contra hle
    rw [slotAt_of_le_length (by omega)] at hs
    cases hs
  have hget : ht.items.get? m = some (Slot.occupied it) := by
    rw [get?_slotAt _ _ hlt, hs]
  have := hwf.2.2 m it hget
  rw [hk] at this
  exact ⟨it, hs, hk, this⟩

theorem wf_no_hit {hash : String → Nat} {ht : ht_hash_table} {key : String}
    (hwf : wf hash ht)
    (hnone : findEntry ht.items key (probeSeq hash ht.size key) = none) :
    ∀ m, slotAct (slotAt ht.items m) key ≠ SAct.hit := by
  intro m hh
  obtain ⟨it, _, _, hfind⟩ := wf_find_of_hit hwf hh
  rw [hnone] at hfind
  cases hfind

theorem ht_search_eq_none_iff {hash : String → Nat} {ht : ht_hash_table} {key : String} :
    ht_search hash ht key = none ↔
      findEntry ht.items key (probeSeq hash ht.size key) = none := by
  rw [ht_search]
  cases findEntry ht.items key (probeSeq hash ht.size key) <;> simp

theorem ht_search_eq_some {hash : String → Nat} {ht : ht_hash_table} {key v : String}
    (h : ht_search hash ht key = some v) :
    ∃ i it, findEntry ht.items key (probeSeq hash ht.size key) = some (i, it) ∧
      it.value = v := by
  rw [ht_search] at h
  cases hF : findEntry ht.items key (probeSeq hash ht.size key) with
  | none => rw [hF] at h; cases h
  | some p =>
    obtain ⟨i, it⟩ := p
    rw [hF] at h
    simp at h
    exact ⟨i, it, rfl, h⟩

/-! ### Construction establishes the invariant -/

theorem wf_ht_new {hash : String → Nat} {capacity : Int} {allocOk : Bool} {ht : ht_hash_table}
    (h : ht_new capacity allocOk = Except.ok ht) : wf hash ht := by
  rw [ht_new] at h
  by_cases hc : capacity ≤ 0
  · rw [if_pos hc] at h; cases h
  · rw [if_neg hc] at h
    cases hA : allocOk with
    | false => rw [hA] at h; simp at h
    | true =>
      rw [hA, if_pos rfl] at h
      injection h with h
      subst h
      refine ⟨by simp, ?_, ?_⟩
      · show 0 = countOccupied (List.replicate capacity.toNat Slot.empty)
        rw [countOccupied, eq_comm, List.countP_eq_zero]
        intro a ha
        rw [List.eq_of_mem_replicate ha]
        simp [isOccupied]
      · intro i it hget
        have hmem := List.get?_mem hget
        cases List.eq_of_mem_replicate hmem

/-! ### The three outcomes of insertion -/

theorem ht_insert_case_update {hash : String → Nat} {ht : ht_hash_table} {key : String}
    (value : String) {i : Nat}
    (hKF : findKeyFull ht.items key (probeSeq hash ht.size key) = some i) :
    ht_insert hash ht key value =
      Except.ok { ht with items := ht.items.set i (Slot.occupied ⟨key, value⟩) } := by
  simp [ht_insert, hKF]

theorem ht_insert_case_reuse {hash : String → Nat} {ht : ht_hash_table} {key : String}
    (value : String) {j : Nat}
    (hKF : findKeyFull ht.items key (probeSeq hash ht.size key) = none)
    (hRU : findReuse ht.items (probeSeq hash ht.size key) = some j) :
    ht_insert hash ht key value =
      Except.ok { ht with count := ht.count + 1,
                          items := ht.items.set j (Slot.occupied ⟨key, value⟩) } := by
  simp [ht_insert, hKF, hRU]

theorem ht_insert_case_full {hash : String → Nat} {ht : ht_hash_table} {key value : String}
    (hKF : findKeyFull ht.items key (probeSeq hash ht.size key) = none)
    (hRU : findReuse ht.items (probeSeq hash ht.size key) = none) :
    ht_insert hash ht key value = Except.error HtError.TableFullError := by
  simp [ht_insert, hKF, hRU]

theorem findKeyFull_eq_findEntry_fst {hash : String → Nat} {ht : ht_hash_table} {key : String}
    (hwf : wf hash ht) :
    findKeyFull ht.items key (probeSeq hash ht.size key)
      = (findEntry ht.items key (probeSeq hash ht.size key)).map Prod.fst := by
  cases hF : findEntry ht.items key (probeSeq hash ht.size key) with
  | none =>
    rw [Option.map_none', findKeyFull_eq_none_iff]
    intro m _ hh
    exact wf_no_hit hwf hF m hh
  | some p =>
    obtain ⟨i, it⟩ := p
    obtain ⟨hmem, hslot, hk⟩ := findEntry_some_spec _ hF
    cases hKF : findKeyFull ht.items key (probeSeq hash ht.size key) with
    | none =>
      rw [findKeyFull_eq_none_iff] at hKF
      exact absurd (slotAct_hit_of_occupied hslot hk) (hKF i hmem)
    | some i' =>
      obtain ⟨hmem', it', hslot', hk'⟩ := findKeyFull_some_spec _ hKF
      obtain ⟨it'', hs'', hk'', hfind''⟩ :=
        wf_find_of_hit hwf (slotAct_hit_of_occupied hslot' hk')
      rw [hF] at hfind''
      injection hfind'' with hp
      rw [(Prod.mk.injEq _ _ _ _).mp hp |>.1]
      rfl

theorem isOccupied_eq_false_of_reusable {s : Slot} (h : isReusable s = true) :
    isOccupied s = false := by
  cases s with
  | empty => rfl
  | deleted => rfl
  | occupied it => cases h

theorem slotAct_pass_of_ne {s : Slot} {key : String} {it : ht_item}
    (hs : s = Slot.occupied it) (hk : it.key ≠ key) : slotAct s key = SAct.pass := by
  simp [slotAct, hs, hk]

/-- After an in-place update of the bucket holding `key`, every search is as
before except that `key` now yields the new value; `count`, `size` and all
other buckets are unchanged, and the invariant is preserved. -/
theorem ht_insert_present {hash : String → Nat} {ht : ht_hash_table} {key : String}
    (value : String) {i : Nat} {it₀ : ht_item} (hwf : wf hash ht)
    (hF : findEntry ht.items key (probeSeq hash ht.size key) = some (i, it₀)) :
    ∃ ht', ht_insert hash ht key value = Except.ok ht' ∧
      ht'.size = ht.size ∧ ht'.count = ht.count ∧
      ht'.items = ht.items.set i (Slot.occupied ⟨key, value⟩) ∧
      slotAt ht.items i = Slot.occupied it₀ ∧ it₀.key = key ∧
      wf hash ht' ∧
      ht_search hash ht' key = some value ∧
      (∀ key', key' ≠ key → ht_search hash ht' key' = ht_search hash ht key') := by
  obtain ⟨hmem, hslot, hk⟩ := findEntry_some_spec _ hF
  have hlen : i < ht.items.length := by
    rw [hwf.1]; exact mem_probeSeq_lt hmem
  have hKF : findKeyFull ht.items key (probeSeq hash ht.size key) = some i := by
    rw [findKeyFull_eq_findEntry_fst hwf, hF]; rfl
  refine ⟨_, ht_insert_case_update value hKF, rfl, rfl, rfl, hslot, hk, ?_, ?_, ?_⟩
  case _ =>
    -- the invariant is preserved
    have hnewfind : findEntry (ht.items.set i (Slot.occupied ⟨key, value⟩)) key
        (probeSeq hash ht.size key) = some (i, ⟨key, value⟩) :=
      findEntry_set_hit _ hF hlen rfl
    refine ⟨by simp [hwf.1], ?_, ?_⟩
    · show ht.count = countOccupied (ht.items.set i (Slot.occupied ⟨key, value⟩))
      have hc := countOccupied_set ht.items i (Slot.occupied ⟨key, value⟩) hlen
      rw [hslot] at hc
      simp [isOccupied] at hc
      rw [hwf.2.1, hc]
    · intro i'' it'' hget''
      by_cases hii : i'' = i
      · subst hii
        rw [get?_slotAt _ _ (by simpa using hlen),
          slotAt_set_self _ _ _ hlen] at hget''
        injection hget'' with hh
        injection hh with hh
        subst hh
        exact hnewfind
      · rw [get?_set_ne _ _ _ _ hii] at hget''
        have hold := hwf.2.2 i'' it'' hget''
        have hkey_ne : it''.key ≠ key := by
          intro heq
          rw [heq, hF] at hold
          injection hold with hp
          exact hii ((Prod.mk.injEq _ _ _ _).mp hp).1.symm
        refine findEntry_congr _ hold ?_ ?_
        · intro m _ hp
          by_cases hmi : m = i
          · subst hmi
            rw [slotAt_set_self _ _ _ hlen]
            exact slotAct_pass_of_ne rfl (fun hh => hkey_ne hh.symm)
          · rw [slotAt_set_ne _ _ _ _ hmi]; exact hp
        · intro m _ hh
          by_cases hmi : m = i
          · subst hmi
            rw [slotAct_pass_of_ne hslot (by rw [hk]; exact fun hh' => hkey_ne hh'.symm)]
              at hh
            cases hh
          · rw [slotAt_set_ne _ _ _ _ hmi]
  case _ =>
    show ht_search hash { ht with items := ht.items.set i (Slot.occupied ⟨key, value⟩) }
      key = some value
    rw [ht_search]
    show (findEntry (ht.items.set i (Slot.occupied ⟨key, value⟩)) key
      (probeSeq hash ht.size key)).map _ = some value
    rw [findEntry_set_hit _ hF hlen rfl]
    rfl
  case _ =>
    intro key' hkey'
    show (findEntry (ht.items.set i (Slot.occupied ⟨key, value⟩)) key'
        (probeSeq hash ht.size key')).map _
      = (findEntry ht.items key' (probeSeq hash ht.size key')).map _
    cases hF' : findEntry ht.items key' (probeSeq hash ht.size key') with
    | some p =>
      obtain ⟨i'', it''⟩ := p
      obtain ⟨_, hslot'', hk''⟩ := findEntry_some_spec _ hF'
      have hkey_ne : it''.key ≠ key := by rw [hk'']; exact hkey'
      have hcongr : findEntry (ht.items.set i (Slot.occupied ⟨key, value⟩)) key'
          (probeSeq hash ht.size key') = some (i'', it'') := by
        refine findEntry_congr _ hF' ?_ ?_
        · intro m _ hp
          by_cases hmi : m = i
          · subst hmi
            rw [slotAt_set_self _ _ _ hlen]
            exact slotAct_pass_of_ne rfl (fun hh => hkey' hh.symm)
          · rw [slotAt_set_ne _ _ _ _ hmi]; exact hp
        · intro m _ hh
          by_cases hmi : m = i
          · subst hmi
            rw [slotAct_pass_of_ne hslot (by rw [hk]; exact fun hh' => hkey' hh'.symm)] at hh
            cases hh
          · rw [slotAt_set_ne _ _ _ _ hmi]
      rw [hcongr]
    | none =>
      have hnone : findEntry (ht.items.set i (Slot.occupied ⟨key, value⟩)) key'
          (probeSeq hash ht.size key') = none := by
        apply findEntry_eq_none_of_no_hit
        intro m _ hh
        by_cases hmi : m = i
        · subst hmi
          rw [slotAt_set_self _ _ _ hlen] at hh
          obtain ⟨it', heq, hk'⟩ := slotAct_eq_hit hh
          injection heq with heq
          rw [← heq] at hk'
          exact hkey' hk'.symm
        · rw [slotAt_set_ne _ _ _ _ hmi] at hh
          exact wf_no_hit hwf hF' m hh
      rw [hnone]

/-- Inserting an absent key places it at the first reusable bucket of its probe
sequence, increments `count` by one, preserves every other search and the
invariant. -/
theorem ht_insert_absent {hash : String → Nat} {ht : ht_hash_table} {key : String}
    (value : String) {j : Nat} (hwf : wf hash ht)
    (hF : findEntry ht.items key (probeSeq hash ht.size key) = none)
    (hRU : findReuse ht.items (probeSeq hash ht.size key) = some j) :
    ∃ ht', ht_insert hash ht key value = Except.ok ht' ∧
      ht'.size = ht.size ∧ ht'.count = ht.count + 1 ∧
      ht'.items = ht.items.set j (Slot.occupied ⟨key, value⟩) ∧
      isReusable (slotAt ht.items j) = true ∧
      wf hash ht' ∧
      ht_search hash ht' key = some value ∧
      (∀ key', key' ≠ key → ht_search hash ht' key' = ht_search hash ht key') := by
  have hnohit := wf_no_hit hwf hF
  have hKF : findKeyFull ht.items key (probeSeq hash ht.size key) = none :=
    (findKeyFull_eq_none_iff _).mpr (fun m _ => hnohit m)
  obtain ⟨hmem, hreu⟩ := findReuse_some_spec _ hRU
  have hlen : j < ht.items.length := by
    rw [hwf.1]; exact mem_probeSeq_lt hmem
  have hnewfind : findEntry (ht.items.set j (Slot.occupied ⟨key, value⟩)) key
      (probeSeq hash ht.size key) = some (j, ⟨key, value⟩) :=
    findEntry_after_reuse _ (fun m _ => hnohit m)
      (fun m hm => by rw [hwf.1]; exact mem_probeSeq_lt hm) hRU
  refine ⟨_, ht_insert_case_reuse value hKF hRU, rfl, rfl, rfl, hreu, ?_, ?_, ?_⟩
  case _ =>
    refine ⟨by simp [hwf.1], ?_, ?_⟩
    · show ht.count + 1 = countOccupied (ht.items.set j (Slot.occupied ⟨key, value⟩))
      have hc := countOccupied_set ht.items j (Slot.occupied ⟨key, value⟩) hlen
      rw [isOccupied_eq_false_of_reusable hreu] at hc
      simp [isOccupied] at hc
      rw [hwf.2.1]
      omega
    · intro i'' it'' hget''
      by_cases hii : i'' = j
      · subst hii
        rw [get?_slotAt _ _ (by simpa using hlen), slotAt_set_self _ _ _ hlen] at hget''
        injection hget'' with hh
        injection hh with hh
        subst hh
        exact hnewfind
      · rw [get?_set_ne _ _ _ _ hii] at hget''
        have hold := hwf.2.2 i'' it'' hget''
        have hkey_ne : it''.key ≠ key := by
          intro heq
          have hhit : slotAct (slotAt ht.items i'') it''.key = SAct.hit := by
            rw [get?_slotAt _ _ (List.get?_eq_some.mp hget'').1] at hget''
            injection hget'' with hh
            exact slotAct_hit_of_occupied hh rfl
          rw [heq] at hhit
          exact hnohit i'' hhit
        refine findEntry_congr _ hold ?_ ?_
        · intro m _ hp
          by_cases hmj : m = j
          · subst hmj
            rw [slotAt_set_self _ _ _ hlen]
            exact slotAct_pass_of_ne rfl (fun hh => hkey_ne hh.symm)
          · rw [slotAt_set_ne _ _ _ _ hmj]; exact hp
        · intro m _ hh
          by_cases hmj : m = j
          · subst hmj
            obtain ⟨it', heq, _⟩ := slotAct_eq_hit hh
            rw [heq] at hreu
            cases hreu
          · rw [slotAt_set_ne _ _ _ _ hmj]
  case _ =>
    show (findEntry (ht.items.set j (Slot.occupied ⟨key, value⟩)) key
      (probeSeq hash ht.size key)).map _ = some value
    rw [hnewfind]
    rfl
  case _ =>
    intro key' hkey'
    show (findEntry (ht.items.set j (Slot.occupied ⟨key, value⟩)) key'
        (probeSeq hash ht.size key')).map _
      = (findEntry ht.items key' (probeSeq hash ht.size key')).map _
    cases hF' : findEntry ht.items key' (probeSeq hash ht.size key') with
    | some p =>
      obtain ⟨i'', it''⟩ := p
      have hcongr : findEntry (ht.items.set j (Slot.occupied ⟨key, value⟩)) key'
          (probeSeq hash ht.size key') = some (i'', it'') := by
        refine findEntry_congr _ hF' ?_ ?_
        · intro m _ hp
          by_cases hmj : m = j
          · subst hmj
            rw [slotAt_set_self _ _ _ hlen]
            exact slotAct_pass_of_ne rfl (fun hh => hkey' hh.symm)
          · rw [slotAt_set_ne _ _ _ _ hmj]; exact hp
        · intro m _ hh
          by_cases hmj : m = j
          · subst hmj
            obtain ⟨it', heq, _⟩ := slotAct_eq_hit hh
            rw [heq] at hreu
            cases hreu
          · rw [slotAt_set_ne _ _ _ _ hmj]
      rw [hcongr]
    | none =>
      have hnone : findEntry (ht.items.set j (Slot.occupied ⟨key, value⟩)) key'
          (probeSeq hash ht.size key') = none := by
        apply findEntry_eq_none_of_no_hit
        intro m _ hh
        by_cases hmj : m = j
        · subst hmj
          rw [slotAt_set_self _ _ _ hlen] at hh
          obtain ⟨it', heq, hk'⟩ := slotAct_eq_hit hh
          injection heq with heq
          rw [← heq] at hk'
          exact hkey' hk'.symm
        · rw [slotAt_set_ne _ _ _ _ hmj] at hh
          exact wf_no_hit hwf hF' m hh
      rw [hnone]

/-- Deleting an absent key (probe stopped at `Empty` or exhausted) is a no-op:
the table is returned entirely unchanged. -/
theorem ht_delete_absent {hash : String → Nat} {ht : ht_hash_table} {key : String}
    (hF : findEntry ht.items key (probeSeq hash ht.size key) = none) :
    ht_delete hash ht key = ht := by
  simp [ht_delete, hF]

/-- Deleting a present key turns its bucket into a tombstone, decrements
`count` by exactly one, makes a search for the key report not-found, preserves
every other search and the invariant. -/
theorem ht_delete_present {hash : String → Nat} {ht : ht_hash_table} {key : String}
    {i : Nat} {it₀ : ht_item} (hwf : wf hash ht)
    (hF : findEntry ht.items key (probeSeq hash ht.size key) = some (i, it₀)) :
    ht_delete hash ht key
        = { ht with count := ht.count - 1, items := ht.items.set i Slot.deleted } ∧
      1 ≤ ht.count ∧
      slotAt ht.items i = Slot.occupied it₀ ∧
      wf hash (ht_delete hash ht key) ∧
      ht_search hash (ht_delete hash ht key) key = none ∧
      (∀ key', key' ≠ key →
        ht_search hash (ht_delete hash ht key) key' = ht_search hash ht key') := by
  obtain ⟨hmem, hslot, hk⟩ := findEntry_some_spec _ hF
  have hlen : i < ht.items.length := by
    rw [hwf.1]; exact mem_probeSeq_lt hmem
  have heq : ht_delete hash ht key
      = { ht with count := ht.count - 1, items := ht.items.set i Slot.deleted } := by
    simp [ht_delete, hF]
  have hcount1 : 1 ≤ ht.count := by
    have hc := countOccupied_set ht.items i Slot.deleted hlen
    rw [hslot] at hc
    simp [isOccupied] at hc
    rw [hwf.2.1]
    omega
  -- a hit for `key` in the old table can only be at bucket `i`
  have hhit_i : ∀ m, slotAct (slotAt ht.items m) key = SAct.hit → m = i := by
    intro m hh
    obtain ⟨it', _, _, hfind'⟩ := wf_find_of_hit hwf hh
    rw [hF] at hfind'
    injection hfind' with hp
    exact ((Prod.mk.injEq _ _ _ _).mp hp).1.symm
  have hno_hit_new : ∀ m, slotAct (slotAt (ht.items.set i Slot.deleted) m) key
      ≠ SAct.hit := by
    intro m hh
    by_cases hmi : m = i
    · subst hmi
      rw [slotAt_set_self _ _ _ hlen] at hh
      cases hh
    · rw [slotAt_set_ne _ _ _ _ hmi] at hh
      exact hmi (hhit_i m hh)
  refine ⟨heq, hcount1, hslot, ?_, ?_, ?_⟩
  case _ =>
    rw [heq]
    refine ⟨by simp [hwf.1], ?_, ?_⟩
    · show ht.count - 1 = countOccupied (ht.items.set i Slot.deleted)
      have hc := countOccupied_set ht.items i Slot.deleted hlen
      rw [hslot] at hc
      simp [isOccupied] at hc
      rw [hwf.2.1]
      omega
    · intro i'' it'' hget''
      by_cases hii : i'' = i
      · subst hii
        rw [get?_slotAt _ _ (by simpa using hlen), slotAt_set_self _ _ _ hlen] at hget''
        cases hget''
      · rw [get?_set_ne _ _ _ _ hii] at hget''
        have hold := hwf.2.2 i'' it'' hget''
        have hkey_ne : it''.key ≠ key := by
          intro hkk
          apply hii
          apply hhit_i
          rw [get?_slotAt _ _ (List.get?_eq_some.mp hget'').1] at hget''
          injection hget'' with hh
          rw [← hkk]
          exact slotAct_hit_of_occupied hh rfl
        refine findEntry_congr _ hold ?_ ?_
        · intro m _ hp
          by_cases hmi : m = i
          · subst hmi
            rw [slotAt_set_self _ _ _ hlen]
            rfl
          · rw [slotAt_set_ne _ _ _ _ hmi]; exact hp
        · intro m _ hh
          by_cases hmi : m = i
          · subst hmi
            rw [slotAct_pass_of_ne hslot (by rw [hk]; exact fun hh' => hkey_ne hh'.symm)]
              at hh
            cases hh
          · rw [slotAt_set_ne _ _ _ _ hmi]
  case _ =>
    rw [heq, ht_search_eq_none_iff]
    exact findEntry_eq_none_of_no_hit _ (fun m _ => hno_hit_new m)
  case _ =>
    intro key' hkey'
    rw [heq]
    show (findEntry (ht.items.set i Slot.deleted) key' (probeSeq hash ht.size key')).map _
      = (findEntry ht.items key' (probeSeq hash ht.size key')).map _
    cases hF' : findEntry ht.items key' (probeSeq hash ht.size key') with
    | some p =>
      obtain ⟨i'', it''⟩ := p
      have hcongr : findEntry (ht.items.set i Slot.deleted) key'
          (probeSeq hash ht.size key') = some (i'', it'') := by
        refine findEntry_congr _ hF' ?_ ?_
        · intro m _ hp
          by_cases hmi : m = i
          · subst hmi
            rw [slotAt_set_self _ _ _ hlen]
            rfl
          · rw [slotAt_set_ne _ _ _ _ hmi]; exact hp
        · intro m _ hh
          by_cases hmi : m = i
          · subst hmi
            rw [slotAct_pass_of_ne hslot (by rw [hk]; exact fun hh' => hkey' hh'.symm)] at hh
            cases hh
          · rw [slotAt_set_ne _ _ _ _ hmi]
      rw [hcongr]
    | none =>
      have hnone : findEntry (ht.items.set i Slot.deleted) key'
          (probeSeq hash ht.size key') = none := by
        apply findEntry_eq_none_of_no_hit
        intro m _ hh
        by_cases hmi : m = i
        · subst hmi
          rw [slotAt_set_self _ _ _ hlen] at hh
          cases hh
        · rw [slotAt_set_ne _ _ _ _ hmi] at hh
          exact wf_no_hit hwf hF' m hh
      rw [hnone]

/-! ### Insertion succeeds while the table is not full -/

theorem exists_not_occupied : ∀ (items : List Slot), countOccupied items < items.length →
    ∃ m, m < items.length ∧ isOccupied (slotAt items m) = false
  | [], h => absurd h (by simp [countOccupied])
  | s :: rest, h => by
    cases hocc : isOccupied s with
    | false => exact ⟨0, by simp, hocc⟩
    | true =>
      have hlt : countOccupied rest < rest.length := by
        simp [countOccupied, List.countP_cons, hocc] at h ⊢
        omega
      obtain ⟨m, hm, hmocc⟩ := exists_not_occupied rest hlt
      exact ⟨m + 1, by simpa using hm, hmocc⟩

theorem isReusable_eq_not_isOccupied (s : Slot) : isReusable s = !isOccupied s := by
  cases s <;> rfl

theorem findReuse_ne_none {items : List Slot} {ps : List Nat} {m : Nat}
    (hm : m ∈ ps) (hr : isReusable (slotAt items m) = true) :
    findReuse items ps ≠ none := by
  intro hnone
  have := (findReuse_eq_none_iff ps).mp hnone m hm
  rw [hr] at this
  cases this

theorem findReuse_isSome_of_not_full {hash : String → Nat} {ht : ht_hash_table}
    (key : String) (hwf : wf hash ht) (hcount : ht.count < ht.size) :
    ∃ j, findReuse ht.items (probeSeq hash ht.size key) = some j := by
  have hlt : countOccupied ht.items < ht.items.length := by
    rw [← hwf.2.1, hwf.1]; exact hcount
  obtain ⟨m, hm, hmocc⟩ := exists_not_occupied ht.items hlt
  have hmem : m ∈ probeSeq hash ht.size key := by
    apply mem_probeSeq
    · omega
    · rw [← hwf.1]; exact hm
  have hr : isReusable (slotAt ht.items m) = true := by
    rw [isReusable_eq_not_isOccupied, hmocc]; rfl
  cases hRU : findReuse ht.items (probeSeq hash ht.size key) with
  | none => exact absurd hRU (findReuse_ne_none hmem hr)
  | some j => exact ⟨j, rfl⟩

theorem slotAt_replicate (n m : Nat) : slotAt (List.replicate n Slot.empty) m = Slot.empty := by
  induction n generalizing m with
  | zero => rfl
  | succ n ih =>
    cases m with
    | zero => rfl
    | succ m => exact ih m

theorem ht_search_ht_new {hash : String → Nat} {capacity : Int} {allocOk : Bool}
    {ht₀ : ht_hash_table} (h : ht_new capacity allocOk = Except.ok ht₀) (key : String) :
    ht_search hash ht₀ key = none := by
  rw [ht_new] at h
  by_cases hc : capacity ≤ 0
  · rw [if_pos hc] at h; cases h
  · rw [if_neg hc] at h
    cases hA : allocOk with
    | false => rw [hA] at h; simp at h
    | true =>
      rw [hA, if_pos rfl] at h
      injection h with h
      subst h
      rw [ht_search_eq_none_iff]
      apply findEntry_eq_none_of_no_hit
      intro m _ hh
      rw [slotAt_replicate] at hh
      cases hh

/-! ### Invariant preservation, packaged -/

theorem count_le_size_of_wf {hash : String → Nat} {ht : ht_hash_table} (hwf : wf hash ht) :
    ht.count ≤ ht.size := by
  rw [hwf.2.1, ← hwf.1]
  exact countOccupied_le_length _

theorem wf_ht_insert {hash : String → Nat} {ht ht' : ht_hash_table} {key value : String}
    (hwf : wf hash ht) (h : ht_insert hash ht key value = Except.ok ht') : wf hash ht' := by
  cases hF : findEntry ht.items key (probeSeq hash ht.size key) with
  | some p =>
    obtain ⟨i, it₀⟩ := p
    obtain ⟨ht'', hins, _, _, _, _, _, hwf'', _⟩ := ht_insert_present value hwf hF
    rw [hins] at h
    injection h with h
    rw [← h]
    exact hwf''
  | none =>
    cases hRU : findReuse ht.items (probeSeq hash ht.size key) with
    | some j =>
      obtain ⟨ht'', hins, _, _, _, _, hwf'', _⟩ := ht_insert_absent value hwf hF hRU
      rw [hins] at h
      injection h with h
      rw [← h]
      exact hwf''
    | none =>
      have hKF : findKeyFull ht.items key (probeSeq hash ht.size key) = none :=
        (findKeyFull_eq_none_iff _).mpr (fun m _ => wf_no_hit hwf hF m)
      rw [ht_insert_case_full hKF hRU] at h
      cases h

theorem wf_ht_delete {hash : String → Nat} {ht : ht_hash_table} (key : String)
    (hwf : wf hash ht) : wf hash (ht_delete hash ht key) := by
  cases hF : findEntry ht.items key (probeSeq hash ht.size key) with
  | some p =>
    obtain ⟨i, it₀⟩ := p
    exact (ht_delete_present hwf hF).2.2.2.1
  | none =>
    rw [ht_delete_absent hF]
    exact hwf

/-! ### Sequences of insertions -/

theorem insertAll_spec {hash : String → Nat} :
    ∀ (kvs : List (String × String)) (ht : ht_hash_table),
    wf hash ht →
    (kvs.map Prod.fst).Nodup →
    (∀ kv ∈ kvs, ht_search hash ht kv.1 = none) →
    ht.count + kvs.length ≤ ht.size →
    ∃ htf, insertAll hash ht kvs = Except.ok htf ∧
      htf.count = ht.count + kvs.length ∧
      htf.size = ht.size ∧
      wf hash htf ∧
      (∀ kv ∈ kvs, ht_search hash htf kv.1 = some kv.2) ∧
      (∀ k, (∀ kv ∈ kvs, kv.1 ≠ k) → ht_search hash htf k = ht_search hash ht k)
  | [], ht, hwf, _, _, _ =>
    ⟨ht, rfl, by simp, rfl, hwf, by simp, fun _ _ => rfl⟩
  | (k, v) :: rest, ht, hwf, hnd, habs, hcap => by
    have hF : findEntry ht.items k (probeSeq hash ht.size k) = none := by
      rw [← ht_search_eq_none_iff]
      exact habs (k, v) (List.mem_cons_self _ _)
    have hcount : ht.count < ht.size := by
      simp at hcap
      omega
    obtain ⟨j, hRU⟩ := findReuse_isSome_of_not_full k hwf hcount
    obtain ⟨ht', hins, hsize', hcount', _, _, hwf', hself', hother'⟩ :=
      ht_insert_absent v hwf hF hRU
    have hnd_rest : (rest.map Prod.fst).Nodup := (List.nodup_cons.mp hnd).2
    have hk_not : ∀ kv ∈ rest, kv.1 ≠ k := by
      intro kv hkv hkk
      have hmm : kv.1 ∈ List.map Prod.fst rest := List.mem_map_of_mem Prod.fst hkv
      rw [hkk] at hmm
      exact (List.nodup_cons.mp hnd).1 hmm
    obtain ⟨htf, hall, hcountf, hsizef, hwff, hfound, hpres⟩ :=
      insertAll_spec rest ht' hwf'
        hnd_rest
        (fun kv hkv => by
          rw [hother' kv.1 (hk_not kv hkv)]
          exact habs kv (List.mem_cons_of_mem _ hkv))
        (by simp at hcap; omega)
    refine ⟨htf, ?_, ?_, ?_, hwff, ?_, ?_⟩
    · rw [insertAll, hins]
      exact hall
    · rw [hcountf, hcount']
      simp
      omega
    · rw [hsizef, hsize']
    · intro kv hkv
      rcases List.mem_cons.mp hkv with heq | hkv'
      · subst heq
        rw [hpres k (fun kv' hkv' => hk_not kv' hkv')]
        exact hself'
      · exact hfound kv hkv'
    · intro k' hk'
      rw [hpres k' (fun kv' hkv' => hk' kv' (List.mem_cons_of_mem _ hkv'))]
      exact hother' k' (Ne.symm (hk' (k, v) (List.mem_cons_self _ _)))

/-! ### Remaining helper lemmas -/

theorem findEntry_append_pass {items : List Slot} {key : String} :
    ∀ ps₁ : List Nat, (∀ m ∈ ps₁, slotAct (slotAt items m) key = SAct.pass) →
    ∀ rest : List Nat, findEntry items key (ps₁ ++ rest) = findEntry items key rest
  | [], _, _ => rfl
  | m :: ps₁, h, rest => by
    rw [List.cons_append,
      findEntry_cons_pass _ (h m (List.mem_cons_self _ _)),
      findEntry_append_pass ps₁ (fun m' hm' => h m' (List.mem_cons_of_mem _ hm')) rest]

theorem wf_unique {hash : String → Nat} {ht : ht_hash_table} (hwf : wf hash ht) :
    ∀ i i' it it', ht.items.get? i = some (Slot.occupied it) →
      ht.items.get? i' = some (Slot.occupied it') → it.key = it'.key → i = i' ∧ it = it' := by
  intro i i' it it' hget hget' hkk
  have h1 := hwf.2.2 i it hget
  have h2 := hwf.2.2 i' it' hget'
  rw [hkk] at h1
  rw [h1] at h2
  injection h2 with hp
  have := (Prod.mk.injEq _ _ _ _).mp hp
  exact ⟨this.1, this.2⟩

theorem delAux_count : ∀ (items : List Slot) (it : ht_item),
    List.count it (delAux items) = List.count (Slot.occupied it) items
  | [], it => rfl
  | Slot.empty :: rest, it => by
    rw [delAux]
    rw [List.count_cons]
    simp [delAux_count rest it]
  | Slot.deleted :: rest, it => by
    rw [delAux]
    rw [List.count_cons]
    simp [delAux_count rest it]
  | Slot.occupied it' :: rest, it => by
    rw [delAux]
    rw [List.count_cons, List.count_cons]
    rw [delAux_count rest it]
    by_cases hii : it = it'
    · simp [hii]
    · simp [hii, fun h => hii (Slot.occupied.inj h)]

theorem delAux_length : ∀ items : List Slot, (delAux items).length = countOccupied items
  | [] => rfl
  | Slot.empty :: rest => by
    rw [delAux]
    simp [countOccupied, List.countP_cons, isOccupied, delAux_length rest]
  | Slot.deleted :: rest => by
    rw [delAux]
    simp [countOccupied, List.countP_cons, isOccupied, delAux_length rest]
  | Slot.occupied it :: rest => by
    rw [delAux]
    simp [countOccupied, List.countP_cons, isOccupied]
    exact delAux_length rest

theorem delAux_mem : ∀ (items : List Slot) (it : ht_item),
    it ∈ delAux items → Slot.occupied it ∈ items
  | Slot.empty :: rest, it, h => List.mem_cons_of_mem _ (delAux_mem rest it h)
  | Slot.deleted :: rest, it, h => List.mem_cons_of_mem _ (delAux_mem rest it h)
  | Slot.occupied it' :: rest, it, h => by
    rw [delAux] at h
    rcases List.mem_cons.mp h with rfl | h
    · exact List.mem_cons_self _ _
    · exact List.mem_cons_of_mem _ (delAux_mem rest it h)

/-- Deleting a key never turns any bucket into `Empty`. -/
theorem ht_delete_slot_ne_empty {hash : String → Nat} {ht : ht_hash_table} (key : String)
    {i : Nat} (h : slotAt ht.items i ≠ Slot.empty) :
    slotAt (ht_delete hash ht key).items i ≠ Slot.empty := by
  cases hF : findEntry ht.items key (probeSeq hash ht.size key) with
  | none => rw [ht_delete_absent hF]; exact h
  | some p =>
    obtain ⟨i', it'⟩ := p
    obtain ⟨_, hslot', _⟩ := findEntry_some_spec _ hF
    have hlen' : i' < ht.items.length := by
      by_contra hle
      rw [slotAt_of_le_length (by omega)] at hslot'
      cases hslot'
    have heq : ht_delete hash ht key
        = { ht with count := ht.count - 1, items := ht.items.set i' Slot.deleted } := by
      simp [ht_delete, hF]
    rw [heq]
    by_cases hii : i = i'
    · subst hii
      rw [slotAt_set_self _ _ _ hlen']
      intro hc
      cases hc
    · show slotAt (ht.items.set i' Slot.deleted) i ≠ Slot.empty
      rw [slotAt_set_ne _ _ _ _ hii]
      exact h

/-- A successful insertion never turns any bucket into `Empty`. -/
theorem ht_insert_slot_ne_empty {hash : String → Nat} {ht ht₂ : ht_hash_table}
    {key value : String} {i : Nat} (h : slotAt ht.items i ≠ Slot.empty)
    (hins : ht_insert hash ht key value = Except.ok ht₂) :
    slotAt ht₂.items i ≠ Slot.empty := by
  rw [ht_insert] at hins
  cases hKF : findKeyFull ht.items key (probeSeq hash ht.size key) with
  | some i' =>
    rw [hKF] at hins
    injection hins with hins
    rw [← hins]
    show slotAt (ht.items.set i' (Slot.occupied ⟨key, value⟩)) i ≠ Slot.empty
    by_cases hii : i = i'
    · subst hii
      by_cases hlen : i < ht.items.length
      · rw [slotAt_set_self _ _ _ hlen]
        intro hc
        cases hc
      · rw [List.set_eq_of_length_le (by omega)]
        exact h
    · rw [slotAt_set_ne _ _ _ _ hii]
      exact h
  | none =>
    rw [hKF] at hins
    cases hRU : findReuse ht.items (probeSeq hash ht.size key) with
    | some j =>
      rw [hRU] at hins
      injection hins with hins
      rw [← hins]
      show slotAt (ht.items.set j (Slot.occupied ⟨key, value⟩)) i ≠ Slot.empty
      by_cases hii : i = j
      · subst hii
        by_cases hlen : i < ht.items.length
        · rw [slotAt_set_self _ _ _ hlen]
          intro hc
          cases hc
        · rw [List.set_eq_of_length_le (by omega)]
          exact h
      · rw [slotAt_set_ne _ _ _ _ hii]
        exact h
    | none =>
      rw [hRU] at hins
      cases hins

/-! ### The claims -/

/-- C3: along the probe sequence for a key, once every earlier probed bucket
lets the walk continue (tombstone or non-matching entry), reaching an
`Occupied` bucket holding the key returns its stored value, and reaching an
`Empty` bucket returns not-found immediately.  The embedding's `ht_search`
returns only the value and takes the table unchanged, so no slot, `count` or
capacity can be modified, matching the spec's no-mutation requirement. -/
theorem claim_C3 (hash : String → Nat) (ht : ht_hash_table) (key : String)
    (ps₁ ps₂ : List Nat) (i : Nat)
    (hsplit : probeSeq hash ht.size key = ps₁ ++ i :: ps₂)
    (hpre : ∀ m ∈ ps₁, slotAct (slotAt ht.items m) key = SAct.pass) :
    (∀ v, slotAt ht.items i = Slot.occupied ⟨key, v⟩ → ht_search hash ht key = some v) ∧
    (slotAt ht.items i = Slot.empty → ht_search hash ht key = none) := by
  constructor
  · intro v hslot
    rw [ht_search, hsplit, findEntry_append_pass ps₁ hpre,
      findEntry_cons_hit ps₂ hslot rfl]
    rfl
  · intro hslot
    rw [ht_search, hsplit, findEntry_append_pass ps₁ hpre,
      findEntry_cons_empty ps₂ hslot]
    rfl

/-- C4: inserting a key that is already present is an in-place update: the
probe stops at the bucket already holding the key, only that bucket changes
(to the new value), `count` is unchanged, the key now searches to the new
value, and every other key searches exactly as before. -/
theorem claim_C4 (hash : String → Nat) (ht : ht_hash_table) (key value v₀ : String)
    (hwf : wf hash ht) (hpresent : ht_search hash ht key = some v₀) :
    ∃ ht' i it₀, ht_insert hash ht key value = Except.ok ht' ∧
      findEntry ht.items key (probeSeq hash ht.size key) = some (i, it₀) ∧
      slotAt ht.items i = Slot.occupied it₀ ∧ it₀.key = key ∧ it₀.value = v₀ ∧
      ht'.items = ht.items.set i (Slot.occupied ⟨key, value⟩) ∧
      ht'.count = ht.count ∧ ht'.size = ht.size ∧
      wf hash ht' ∧
      ht_search hash ht' key = some value ∧
      (∀ key', key' ≠ key → ht_search hash ht' key' = ht_search hash ht key') := by
  obtain ⟨i, it₀, hF, hval⟩ := ht_search_eq_some hpresent
  obtain ⟨ht', hins, hsize, hcount, hitems, hslot, hk, hwf', hself, hother⟩ :=
    ht_insert_present value hwf hF
  exact ⟨ht', i, it₀, hins, hF, hslot, hk, hval, hitems, hcount, hsize, hwf', hself, hother⟩

/-- C5: deleting a present key makes a subsequent search for it report
not-found, decreases `count` by exactly one and changes only the key's bucket
(into a tombstone), leaving every other search unchanged; deleting an absent
key returns the table literally unchanged — a no-op, not an error (the
model's `ht_delete` has no error outcome at all). -/
theorem claim_C5 (hash : String → Nat) (ht : ht_hash_table) (key : String)
    (hwf : wf hash ht) :
    (∀ v₀, ht_search hash ht key = some v₀ →
      ht_search hash (ht_delete hash ht key) key = none ∧
      (ht_delete hash ht key).count + 1 = ht.count ∧
      (∃ i it₀, findEntry ht.items key (probeSeq hash ht.size key) = some (i, it₀) ∧
        (ht_delete hash ht key).items = ht.items.set i Slot.deleted) ∧
      (∀ key', key' ≠ key →
        ht_search hash (ht_delete hash ht key) key' = ht_search hash ht key')) ∧
    (ht_search hash ht key = none → ht_delete hash ht key = ht) := by
  constructor
  · intro v₀ hpresent
    obtain ⟨i, it₀, hF, _⟩ := ht_search_eq_some hpresent
    obtain ⟨heq, hcount1, _, _, hnone, hother⟩ := ht_delete_present hwf hF
    refine ⟨hnone, ?_, ⟨i, it₀, hF, by rw [heq]⟩, hother⟩
    rw [heq]
    show ht.count - 1 + 1 = ht.count
    omega
  · intro habsent
    exact ht_delete_absent (ht_search_eq_none_iff.mp habsent)

/-- C7: insertion fails, with `TableFullError` delivered to the caller as the
operation's result, exactly when every bucket of the probe sequence is
`Occupied` by some other key (no `Empty` or `Deleted` bucket anywhere in the
sequence and the key not present); and a successful insertion never resizes:
the capacity and the bucket array length are unchanged. -/
theorem claim_C7 (hash : String → Nat) (ht : ht_hash_table) (key value : String) :
    (ht_insert hash ht key value = Except.error HtError.TableFullError ↔
      ∀ m ∈ probeSeq hash ht.size key,
        ∃ it, slotAt ht.items m = Slot.occupied it ∧ it.key ≠ key) ∧
    (∀ ht', ht_insert hash ht key value = Except.ok ht' →
      ht'.size = ht.size ∧ ht'.items.length = ht.items.length) := by
  constructor
  · cases hKF : findKeyFull ht.items key (probeSeq hash ht.size key) with
    | some i =>
      rw [ht_insert_case_update value hKF]
      obtain ⟨hmem, it, hslot, hk⟩ := findKeyFull_some_spec _ hKF
      constructor
      · intro h; cases h
      · intro h
        obtain ⟨it', hslot', hk'⟩ := h i hmem
        rw [hslot] at hslot'
        injection hslot' with he
        subst he
        exact absurd hk hk'
    | none =>
      cases hRU : findReuse ht.items (probeSeq hash ht.size key) with
      | some j =>
        rw [ht_insert_case_reuse value hKF hRU]
        obtain ⟨hmem, hreu⟩ := findReuse_some_spec _ hRU
        constructor
        · intro h; cases h
        · intro h
          obtain ⟨it', hslot', _⟩ := h j hmem
          rw [hslot'] at hreu
          cases hreu
      | none =>
        rw [ht_insert_case_full hKF hRU]
        constructor
        · intro _ m hm
          have hnr := (findReuse_eq_none_iff _).mp hRU m hm
          have hnh := (findKeyFull_eq_none_iff _).mp hKF m hm
          cases hs : slotAt ht.items m with
          | empty => rw [hs] at hnr; simp [isReusable] at hnr
          | deleted => rw [hs] at hnr; simp [isReusable] at hnr
          | occupied it =>
            refine ⟨it, rfl, ?_⟩
            intro hk
            exact hnh (slotAct_hit_of_occupied hs hk)
        · intro _; rfl
  · intro ht' h
    cases hKF : findKeyFull ht.items key (probeSeq hash ht.size key) with
    | some i =>
      rw [ht_insert_case_update value hKF] at h
      injection h with h
      rw [← h]
      exact ⟨rfl, by simp⟩
    | none =>
      cases hRU : findReuse ht.items (probeSeq hash ht.size key) with
      | some j =>
        rw [ht_insert_case_reuse value hKF hRU] at h
        injection h with h
        rw [← h]
        exact ⟨rfl, by simp⟩
      | none =>
        rw [ht_insert_case_full hKF hRU] at h
        cases h

/-- C8: construction with a capacity request: a non-positive capacity yields
`ConfigurationError`, a failed allocation yields `AllocationError`, and
otherwise exactly `capacity` buckets are allocated, all `Empty`, with
`count = 0`.  The constructor body is absent from `src/` (the header declares
`ht_new(void)`, taking no capacity argument), so the capacity parameter and
the allocation oracle follow the spec's `new(capacity)`. -/
theorem claim_C8 (capacity : Int) (allocOk : Bool) :
    (capacity ≤ 0 → ht_new capacity allocOk = Except.error HtError.ConfigurationError) ∧
    (0 < capacity → allocOk = false →
      ht_new capacity allocOk = Except.error HtError.AllocationError) ∧
    (0 < capacity → allocOk = true → ∃ ht₀,
      ht_new capacity allocOk = Except.ok ht₀ ∧ (ht₀.size : Int) = capacity ∧
      ht₀.count = 0 ∧ ht₀.items.length = ht₀.size ∧
      ∀ i, slotAt ht₀.items i = Slot.empty) := by
  refine ⟨?_, ?_, ?_⟩
  · intro hc
    rw [ht_new, if_pos hc]
  · intro hc hA
    rw [ht_new, if_neg (by omega : ¬capacity ≤ 0), hA]
    simp
  · intro hc hA
    refine ⟨_, by rw [ht_new, if_neg (by omega : ¬capacity ≤ 0), hA, if_pos rfl], ?_,
      rfl, by simp, ?_⟩
    · exact Int.toNat_of_nonneg (by omega)
    · intro i
      exact slotAt_replicate _ _

/-- C9: destruction, run once over the final table, frees exactly the entries
of the `Occupied` buckets: the free trace has one element per `Occupied`
bucket, each entry value is freed exactly as many times as it occupies a
bucket (so exactly once per bucket, with no double-free and no leak), and
nothing is ever freed on behalf of an `Empty` or `Deleted` bucket — every
freed entry comes from an `Occupied` bucket. -/
theorem claim_C9 (ht : ht_hash_table) :
    (ht_del_hash_table ht).length = countOccupied ht.items ∧
    (∀ it : ht_item, List.count it (ht_del_hash_table ht)
      = List.count (Slot.occupied it) ht.items) ∧
    (∀ it : ht_item, it ∈ ht_del_hash_table ht → Slot.occupied it ∈ ht.items) :=
  ⟨delAux_length _, fun it => delAux_count _ it, fun it h => delAux_mem _ it h⟩

/-- C1: starting from a freshly constructed table, any sequence of insertions
with pairwise-distinct non-empty keys of length at most the capacity succeeds,
leaves `count` equal to the number of (distinct) keys inserted, and every
inserted key is found by `ht_search` with the value inserted for it (its most
recent value, each key being inserted once). -/
theorem claim_C1 (hash : String → Nat) (capacity : Int) (allocOk : Bool)
    (ht₀ : ht_hash_table) (kvs : List (String × String))
    (hnew : ht_new capacity allocOk = Except.ok ht₀)
    (hnd : (kvs.map Prod.fst).Nodup)
    (_hne : ∀ kv ∈ kvs, kv.1 ≠ "")
    (hlen : kvs.length ≤ ht₀.size) :
    ∃ htf, insertAll hash ht₀ kvs = Except.ok htf ∧
      htf.count = kvs.length ∧
      ∀ kv ∈ kvs, ht_search hash htf kv.1 = some kv.2 := by
  have hwf₀ : wf hash ht₀ := wf_ht_new hnew
  have hcount₀ : ht₀.count = 0 := by
    rw [ht_new] at hnew
    by_cases hc : capacity ≤ 0
    · rw [if_pos hc] at hnew; cases hnew
    · rw [if_neg hc] at hnew
      cases hA : allocOk with
      | false => rw [hA] at hnew; simp at hnew
      | true =>
        rw [hA, if_pos rfl] at hnew
        injection hnew with hnew
        rw [← hnew]
  obtain ⟨htf, hall, hcount, _, _, hfound, _⟩ :=
    insertAll_spec kvs ht₀ hwf₀ hnd
      (fun kv _ => ht_search_ht_new hnew kv.1)
      (by omega)
  exact ⟨htf, hall, by omega, hfound⟩

/-- C2: if key `k1` occupies a bucket that lies on `k2`'s probe path strictly
before `k2`'s own bucket, then after `delete k1` that bucket is a tombstone,
`search k2` still succeeds with `k2`'s value (probing does not stop at the
tombstone), and the tombstone is never turned back into `Empty` by a further
delete, nor by an insert — an insert can only overwrite it with an `Occupied`
entry. -/
theorem claim_C2 (hash : String → Nat) (ht : ht_hash_table)
    (k1 k2 v2 : String) (i : Nat) (it₁ : ht_item)
    (hwf : wf hash ht) (hne : k1 ≠ k2)
    (h1 : findEntry ht.items k1 (probeSeq hash ht.size k1) = some (i, it₁))
    (h2 : ht_search hash ht k2 = some v2)
    (_hpath : ∃ n1 n2 i2 it2, n1 < n2 ∧
      (probeSeq hash ht.size k2).get? n1 = some i ∧
      (probeSeq hash ht.size k2).get? n2 = some i2 ∧
      findEntry ht.items k2 (probeSeq hash ht.size k2) = some (i2, it2)) :
    slotAt (ht_delete hash ht k1).items i = Slot.deleted ∧
    ht_search hash (ht_delete hash ht k1) k2 = some v2 ∧
    (∀ key', slotAt (ht_delete hash (ht_delete hash ht k1) key').items i ≠ Slot.empty) ∧
    (∀ key' value' ht₂, ht_insert hash (ht_delete hash ht k1) key' value' = Except.ok ht₂ →
      slotAt ht₂.items i ≠ Slot.empty) := by
  obtain ⟨hmem, hslot, _⟩ := findEntry_some_spec _ h1
  have hlen : i < ht.items.length := by
    rw [hwf.1]; exact mem_probeSeq_lt hmem
  obtain ⟨heq, _, _, _, _, hother⟩ := ht_delete_present hwf h1
  have hdel_slot : slotAt (ht_delete hash ht k1).items i = Slot.deleted := by
    rw [heq]
    exact slotAt_set_self _ _ _ hlen
  have hne_empty : slotAt (ht_delete hash ht k1).items i ≠ Slot.empty := by
    rw [hdel_slot]
    intro hc
    cases hc
  refine ⟨hdel_slot, ?_, ?_, ?_⟩
  · rw [hother k2 (Ne.symm hne)]
    exact h2
  · intro key'
    exact ht_delete_slot_ne_empty key' hne_empty
  · intro key' value' ht₂ hins
    exact ht_insert_slot_ne_empty hne_empty hins

/-- C6: construction establishes, and insertion and deletion preserve, the
table invariant `wf`: the bucket array realises the capacity, `count` is the
number of `Occupied` buckets (tombstones do not count) — hence
`0 ≤ count ≤ capacity` — and every live entry occupies exactly one `Occupied`
bucket, reachable by the probe sequence for its key (`findEntry` locates it at
its own bucket); `ht_search` takes no table apart, being a pure function of
the table. -/
theorem claim_C6 (hash : String → Nat) :
    (∀ capacity allocOk ht₀, ht_new capacity allocOk = Except.ok ht₀ →
      wf hash ht₀ ∧ ht₀.count ≤ ht₀.size) ∧
    (∀ ht key value ht', wf hash ht → ht_insert hash ht key value = Except.ok ht' →
      wf hash ht' ∧ ht'.count ≤ ht'.size) ∧
    (∀ ht key, wf hash ht →
      wf hash (ht_delete hash ht key) ∧
      (ht_delete hash ht key).count ≤ (ht_delete hash ht key).size) ∧
    (∀ ht, wf hash ht →
      ∀ i i' it it', ht.items.get? i = some (Slot.occupied it) →
        ht.items.get? i' = some (Slot.occupied it') → it.key = it'.key →
        i = i' ∧ it = it') := by
  refine ⟨?_, ?_, ?_, ?_⟩
  · intro capacity allocOk ht₀ h
    have hwf := @wf_ht_new hash _ _ _ h
    exact ⟨hwf, count_le_size_of_wf hwf⟩
  · intro ht key value ht' hwf h
    have hwf' := wf_ht_insert hwf h
    exact ⟨hwf', count_le_size_of_wf hwf'⟩
  · intro ht key hwf
    have hwf' := wf_ht_delete key hwf
    exact ⟨hwf', count_le_size_of_wf hwf'⟩
  · intro ht hwf
    exact wf_unique hwf

/-! ### Witnesses: each claim theorem exercised at a concrete input -/

/-- Witness for C1: two distinct keys inserted into a fresh capacity-3 table
under the all-collide hash. -/
theorem claim_C1_witness :
    ∃ htf, insertAll hash0 ⟨3, 0, List.replicate 3 Slot.empty⟩
        [("cat", "meow"), ("dog", "woof")] = Except.ok htf ∧
      htf.count = [("cat", "meow"), ("dog", "woof")].length ∧
      ∀ kv ∈ [("cat", "meow"), ("dog", "woof")], ht_search hash0 htf kv.1 = some kv.2 :=
  claim_C1 hash0 3 true ⟨3, 0, List.replicate 3 Slot.empty⟩
    [("cat", "meow"), ("dog", "woof")] rfl (by decide) (by decide) (by decide)

/-- Witness for C2: with the all-collide hash, key `b` probes through key
`a`'s bucket 0 before reaching its own bucket 1; deleting `a` leaves a
tombstone there and `b` is still found. -/
theorem claim_C2_witness :
    slotAt (ht_delete hash0
        ⟨3, 2, [Slot.occupied ⟨"a", "1"⟩, Slot.occupied ⟨"b", "2"⟩, Slot.empty]⟩ "a").items 0
      = Slot.deleted ∧
    ht_search hash0 (ht_delete hash0
        ⟨3, 2, [Slot.occupied ⟨"a", "1"⟩, Slot.occupied ⟨"b", "2"⟩, Slot.empty]⟩ "a") "b"
      = some "2" ∧
    (∀ key', slotAt (ht_delete hash0 (ht_delete hash0
        ⟨3, 2, [Slot.occupied ⟨"a", "1"⟩, Slot.occupied ⟨"b", "2"⟩, Slot.empty]⟩ "a")
        key').items 0 ≠ Slot.empty) ∧
    (∀ key' value' ht₂, ht_insert hash0 (ht_delete hash0
        ⟨3, 2, [Slot.occupied ⟨"a", "1"⟩, Slot.occupied ⟨"b", "2"⟩, Slot.empty]⟩ "a")
        key' value' = Except.ok ht₂ → slotAt ht₂.items 0 ≠ Slot.empty) :=
  claim_C2 hash0 ⟨3, 2, [Slot.occupied ⟨"a", "1"⟩, Slot.occupied ⟨"b", "2"⟩, Slot.empty]⟩
    "a" "b" "2" 0 ⟨"a", "1"⟩
    (@wf_ht_insert hash0 ⟨3, 1, [Slot.occupied ⟨"a", "1"⟩, Slot.empty, Slot.empty]⟩
      ⟨3, 2, [Slot.occupied ⟨"a", "1"⟩, Slot.occupied ⟨"b", "2"⟩, Slot.empty]⟩ "b" "2"
      (@wf_ht_insert hash0 ⟨3, 0, List.replicate 3 Slot.empty⟩
        ⟨3, 1, [Slot.occupied ⟨"a", "1"⟩, Slot.empty, Slot.empty]⟩ "a" "1"
        (@wf_ht_new hash0 3 true ⟨3, 0, List.replicate 3 Slot.empty⟩ rfl) rfl) rfl)
    (by decide) (by decide) (by decide)
    ⟨0, 1, 1, ⟨"b", "2"⟩, by decide, by decide, by decide, by decide⟩

/-- Witness for C3: probe sequence `[0, 1]` for key `k`, empty prefix, bucket
0 decisive. -/
theorem claim_C3_witness :
    (∀ v, slotAt (⟨2, 1, [Slot.occupied ⟨"k", "v"⟩, Slot.empty]⟩ : ht_hash_table).items 0
        = Slot.occupied ⟨"k", v⟩ →
      ht_search hash0 ⟨2, 1, [Slot.occupied ⟨"k", "v"⟩, Slot.empty]⟩ "k" = some v) ∧
    (slotAt (⟨2, 1, [Slot.occupied ⟨"k", "v"⟩, Slot.empty]⟩ : ht_hash_table).items 0
        = Slot.empty →
      ht_search hash0 ⟨2, 1, [Slot.occupied ⟨"k", "v"⟩, Slot.empty]⟩ "k" = none) :=
  claim_C3 hash0 ⟨2, 1, [Slot.occupied ⟨"k", "v"⟩, Slot.empty]⟩ "k" [] [1] 0
    (by decide) (by simp)

/-- Witness for C4: re-inserting present key `k` with a new value in a
well-formed two-bucket table. -/
theorem claim_C4_witness :
    ∃ ht' i it₀,
      ht_insert hash0 ⟨2, 1, [Slot.occupied ⟨"k", "v0"⟩, Slot.empty]⟩ "k" "v1"
        = Except.ok ht' ∧
      findEntry [Slot.occupied ⟨"k", "v0"⟩, Slot.empty] "k" (probeSeq hash0 2 "k")
        = some (i, it₀) ∧
      slotAt [Slot.occupied ⟨"k", "v0"⟩, Slot.empty] i = Slot.occupied it₀ ∧
      it₀.key = "k" ∧ it₀.value = "v0" ∧
      ht'.items = [Slot.occupied ⟨"k", "v0"⟩, Slot.empty].set i (Slot.occupied ⟨"k", "v1"⟩) ∧
      ht'.count = 1 ∧ ht'.size = 2 ∧
      wf hash0 ht' ∧
      ht_search hash0 ht' "k" = some "v1" ∧
      (∀ key', key' ≠ "k" → ht_search hash0 ht' key'
        = ht_search hash0 ⟨2, 1, [Slot.occupied ⟨"k", "v0"⟩, Slot.empty]⟩ key') :=
  claim_C4 hash0 ⟨2, 1, [Slot.occupied ⟨"k", "v0"⟩, Slot.empty]⟩ "k" "v1" "v0"
    (@wf_ht_insert hash0 ⟨2, 0, List.replicate 2 Slot.empty⟩
      ⟨2, 1, [Slot.occupied ⟨"k", "v0"⟩, Slot.empty]⟩ "k" "v0"
      (@wf_ht_new hash0 2 true ⟨2, 0, List.replicate 2 Slot.empty⟩ rfl) rfl)
    (by decide)

/-- Witness for C5: deleting in a well-formed two-bucket table holding key
`k`. -/
theorem claim_C5_witness :
    (∀ v₀, ht_search hash0 ⟨2, 1, [Slot.occupied ⟨"k", "v0"⟩, Slot.empty]⟩ "k" = some v₀ →
      ht_search hash0
          (ht_delete hash0 ⟨2, 1, [Slot.occupied ⟨"k", "v0"⟩, Slot.empty]⟩ "k") "k" = none ∧
      (ht_delete hash0 ⟨2, 1, [Slot.occupied ⟨"k", "v0"⟩, Slot.empty]⟩ "k").count + 1 = 1 ∧
      (∃ i it₀, findEntry [Slot.occupied ⟨"k", "v0"⟩, Slot.empty] "k" (probeSeq hash0 2 "k")
          = some (i, it₀) ∧
        (ht_delete hash0 ⟨2, 1, [Slot.occupied ⟨"k", "v0"⟩, Slot.empty]⟩ "k").items
          = [Slot.occupied ⟨"k", "v0"⟩, Slot.empty].set i Slot.deleted) ∧
      (∀ key', key' ≠ "k" →
        ht_search hash0
            (ht_delete hash0 ⟨2, 1, [Slot.occupied ⟨"k", "v0"⟩, Slot.empty]⟩ "k") key'
          = ht_search hash0 ⟨2, 1, [Slot.occupied ⟨"k", "v0"⟩, Slot.empty]⟩ key')) ∧
    (ht_search hash0 ⟨2, 1, [Slot.occupied ⟨"k", "v0"⟩, Slot.empty]⟩ "k" = none →
      ht_delete hash0 ⟨2, 1, [Slot.occupied ⟨"k", "v0"⟩, Slot.empty]⟩ "k"
        = ⟨2, 1, [Slot.occupied ⟨"k", "v0"⟩, Slot.empty]⟩) :=
  claim_C5 hash0 ⟨2, 1, [Slot.occupied ⟨"k", "v0"⟩, Slot.empty]⟩ "k"
    (@wf_ht_insert hash0 ⟨2, 0, List.replicate 2 Slot.empty⟩
      ⟨2, 1, [Slot.occupied ⟨"k", "v0"⟩, Slot.empty]⟩ "k" "v0"
      (@wf_ht_new hash0 2 true ⟨2, 0, List.replicate 2 Slot.empty⟩ rfl) rfl)

/-- Witness for C6: the invariant holds for a freshly built and filled table
and is preserved by a concrete deletion. -/
theorem claim_C6_witness :
    wf hash0 ⟨2, 1, [Slot.occupied ⟨"k", "v"⟩, Slot.empty]⟩ ∧
    wf hash0 (ht_delete hash0 ⟨2, 1, [Slot.occupied ⟨"k", "v"⟩, Slot.empty]⟩ "k") := by
  have h := claim_C6 hash0
  have h1 := h.2.1 ⟨2, 0, List.replicate 2 Slot.empty⟩ "k" "v"
    ⟨2, 1, [Slot.occupied ⟨"k", "v"⟩, Slot.empty]⟩
    (h.1 2 true ⟨2, 0, List.replicate 2 Slot.empty⟩ rfl).1 rfl
  exact ⟨h1.1, (h.2.2.1 ⟨2, 1, [Slot.occupied ⟨"k", "v"⟩, Slot.empty]⟩ "k" h1.1).1⟩

/-- Witness for C7: a full one-bucket table holding another key rejects the
insertion with `TableFullError`. -/
theorem claim_C7_witness :
    ht_insert hash0 ⟨1, 1, [Slot.occupied ⟨"z", "9"⟩]⟩ "y" "0"
      = Except.error HtError.TableFullError :=
  (claim_C7 hash0 ⟨1, 1, [Slot.occupied ⟨"z", "9"⟩]⟩ "y" "0").1.mpr
    (fun m hm => by
      simp [probeSeq, hash0] at hm
      subst hm
      exact ⟨⟨"z", "9"⟩, rfl, by decide⟩)

/-- Witness for C8: construction outcomes at capacities `-1` and `2`. -/
theorem claim_C8_witness :
    ht_new (-1) true = Except.error HtError.ConfigurationError ∧
    ht_new 2 false = Except.error HtError.AllocationError ∧
    ∃ ht₀, ht_new 2 true = Except.ok ht₀ ∧ (ht₀.size : Int) = 2 ∧ ht₀.count = 0 ∧
      ht₀.items.length = ht₀.size ∧ ∀ i, slotAt ht₀.items i = Slot.empty :=
  ⟨(claim_C8 (-1) true).1 (by decide),
   (claim_C8 2 false).2.1 (by decide) rfl,
   (claim_C8 2 true).2.2 (by decide) rfl⟩

/-- Witness for C9: destruction of a table holding one `Occupied`, one
`Deleted` and one `Empty` bucket. -/
theorem claim_C9_witness :
    (ht_del_hash_table
        ⟨3, 1, [Slot.occupied ⟨"k", "v"⟩, Slot.deleted, Slot.empty]⟩).length
      = countOccupied [Slot.occupied ⟨"k", "v"⟩, Slot.deleted, Slot.empty] ∧
    (∀ it : ht_item, List.count it (ht_del_hash_table
        ⟨3, 1, [Slot.occupied ⟨"k", "v"⟩, Slot.deleted, Slot.empty]⟩)
      = List.count (Slot.occupied it)
        [Slot.occupied ⟨"k", "v"⟩, Slot.deleted, Slot.empty]) ∧
    (∀ it : ht_item, it ∈ ht_del_hash_table
        ⟨3, 1, [Slot.occupied ⟨"k", "v"⟩, Slot.deleted, Slot.empty]⟩ →
      Slot.occupied it ∈ [Slot.occupied ⟨"k", "v"⟩, Slot.deleted, Slot.empty]) :=
  claim_C9 ⟨3, 1, [Slot.occupied ⟨"k", "v"⟩, Slot.deleted, Slot.empty]⟩
